import Mathlib

/-!
Verification of the PolicyBot ingestion-and-retrieval core against its
natural-language specification.

The development shallowly embeds the two core modules:

* src/chunker.py — sentence-aligned chunking and deterministic chunk ids;
* src/embed.py — embedding, FAISS index persistence, incremental update,
  and top-k inner-product search.

External libraries are modelled at their documented interfaces:

* Python str.split() (whitespace tokenization) is reimplemented over the
  character list of the string (splits on runs of whitespace characters and
  drops empty tokens), in wordsAux / strWords below.
* nltk sent_tokenize is an external sentence tokenizer; the functions that
  consume its output take the sentence list it produced as their argument.
* hashlib.sha256 hexdigest is an external pure function String → String and
  is passed as a parameter where the source calls it.
* sentence_transformers.SentenceTransformer.encode is modelled by the
  EmbedEnv structure: a batch encoder returning one fixed-width row per
  input text (the documented contract of the library), together with the
  square-root function that faiss.normalize_L2 uses on the host floats.
* faiss IndexFlatIP / IndexIDMap is modelled as a dimension plus the list of
  (internal id, vector) pairs in insertion order; search scores every stored
  vector by inner product with the query, ranks best-first, and pads missing
  slots with id -1 exactly as the faiss API documents.
* the three persistence artifacts (faiss.index, metadata.json,
  already_embedded.yaml) are modelled as a Storage record whose fields are
  either absent, unreadable/unparseable (corrupt), or hold a parsed value;
  save_index models the successful write path, which is what the claims
  about successful persists quantify over.

Scalars are kept generic over a LinearOrderedField so every definition is
executable at ℚ, while the concrete search example of the specification
(which needs the L2-normalized vector of (1,1), hence the square root of 2)
is instantiated at ℝ.
-/

namespace PolicyBot

/-! ## Data model: chunks and metadata records (src/chunker.py, src/embed.py) -/

/-- A chunk record as written by the chunker: {id, site, source_file,
chunk_index, text}. -/
structure Chunk where
  id : String
  site : String
  source_file : String
  chunk_index : Nat
  text : String
deriving DecidableEq, Repr

/-- A metadata record as persisted in metadata.json: the chunk record
without its text, exactly the four fields embed.py copies out of a chunk. -/
structure MetadataRecord where
  id : String
  site : String
  source_file : String
  chunk_index : Nat
deriving DecidableEq, Repr

/-- The metadata record that embed_all_and_save and
add_embeddings_incremental build from a chunk. -/
def mdOfChunk (c : Chunk) : MetadataRecord :=
  { id := c.id, site := c.site, source_file := c.source_file,
    chunk_index := c.chunk_index }

/-! ## Python str.split(), modelled over the character list -/

/-- Helper for strWords: scans the characters, accumulating the current word
in reverse; whitespace closes the current word (if nonempty), mirroring the
semantics of Python str.split() with no separator argument. -/
def wordsAux : List Char → List Char → List String
  | [], cur => if cur.isEmpty then [] else [String.mk cur.reverse]
  | c :: rest, cur =>
      if c.isWhitespace then
        if cur.isEmpty then wordsAux rest [] else String.mk cur.reverse :: wordsAux rest []
      else wordsAux rest (c :: cur)

/-- Model of Python str.split(): split on runs of whitespace, dropping empty
tokens. Used for sentence.split() in chunk_text and for whitespace-token
word counts. -/
def strWords (s : String) : List String :=
  wordsAux s.toList []

/-! ## chunk_text (src/chunker.py lines 47-72)

The source iterates over sent_tokenize(text) keeping a current chunk (a word
list) and its running length; a sentence whose words would push the running
count past max_words closes the current chunk and starts a new one with that
sentence's words. The loop below is the direct translation; the sentences
argument is the output of the external sent_tokenize. The running counter
current_len of the source always equals the length of the current word list,
so the embedding uses the list length directly. -/

/-- The chunking loop of chunk_text, returning the chunks as word lists in
emission order. The cur argument is the current chunk under construction. -/
def chunkLoop (max_words : Nat) : List String → List String → List (List String)
  | [], cur => if cur.isEmpty then [] else [cur]
  | s :: rest, cur =>
      let words := strWords s
      if cur.length + words.length > max_words then
        if cur.isEmpty then chunkLoop max_words rest words
        else cur :: chunkLoop max_words rest words
      else chunkLoop max_words rest (cur ++ words)

/-- The chunks of chunk_text as word lists: the loop started with an empty
current chunk. -/
def chunk_text_words (sentences : List String) (max_words : Nat) : List (List String) :=
  chunkLoop max_words sentences []

/-- chunk_text itself: each emitted chunk is the space-join of its word
list, exactly the space-join of current_chunk performed by the source. -/
def chunk_text (sentences : List String) (max_words : Nat := 150) : List String :=
  (chunk_text_words sentences max_words).map (String.intercalate " ")

/-! ## Chunk ids (src/chunker.py lines 36-45 and the main loop) -/

/-- Model of _make_chunk_id: the id is the hash of the key
site|source_file|chunk_index. The hash (hashlib.sha256 hexdigest in the
source) is an external pure function and is passed as a parameter. The text
parameter exists in the source signature but is not used in the key (the
content-derived variant is commented out in the source). -/
def make_chunk_id (sha256_hex : String → String) (site : String)
    (source_file : String) (chunk_index : Nat) (_text : Option String := none) :
    String :=
  sha256_hex (site ++ "|" ++ source_file ++ "|" ++ toString chunk_index)

/-- The id sequence the chunker main loop assigns to one document's chunk
list: for i, chunk in enumerate(chunks), the id is
_make_chunk_id(site, file stem, i); the chunk text itself is not passed. -/
def assign_chunk_ids (sha256_hex : String → String) (site : String)
    (stem : String) (chunks : List String) : List String :=
  (List.range chunks.length).map fun i => make_chunk_id sha256_hex site stem i

/-! ## The embedding environment (external encoder + host square root)

SentenceTransformer.encode maps a batch of n texts to an (n × d) array of
floats for the model's fixed output dimension d; faiss.normalize_L2 then
divides each row by its L2 norm. The encoder and the square root live
outside the repository, so they are packaged here with the two shape facts
the library documents: one output row per input text, every row of width d. -/

/-- External embedding environment: the batch text encoder with its fixed
output width, and the square-root function of the host floats (used only by
the model of faiss.normalize_L2). -/
structure EmbedEnv (α : Type) where
  width : Nat
  encode : List String → List (List α)
  sqrt : α → α
  encode_length : ∀ ts, (encode ts).length = ts.length
  encode_width : ∀ ts, ∀ r ∈ encode ts, r.length = width

/-- Total number of scalar entries of a row-list matrix; models
numpy ndarray.size, which embed.py compares against 0. -/
def matSize {α : Type} (m : List (List α)) : Nat :=
  (m.map List.length).sum

/-- Inner product of two rows, pairing componentwise; models the flat
inner-product scoring of faiss IndexFlatIP. -/
def dot {α : Type} [Mul α] [Add α] [Zero α] (u v : List α) : α :=
  (u.zip v).foldr (fun p acc => p.1 * p.2 + acc) 0

/-- Model of faiss.normalize_L2 on one row: divide every component by the
L2 norm of the row. In a Lean field, division by a zero norm yields zero,
matching the all-zero row staying all-zero. -/
def normalize_L2 {α : Type} [Mul α] [Add α] [Zero α] [Div α]
    (sqrt : α → α) (row : List α) : List α :=
  row.map fun x => x / sqrt (dot row row)

/-- compute_embeddings (src/embed.py lines 29-41): empty input
short-circuits to an empty result without touching the encoder; otherwise
encode the batch and L2-normalize every row for inner-product search. -/
def compute_embeddings {α : Type} [Mul α] [Add α] [Zero α] [Div α]
    (e : EmbedEnv α) (texts : List String) : List (List α) :=
  if texts.isEmpty then []
  else (e.encode texts).map (normalize_L2 e.sqrt)

/-! ## The FAISS index model (IndexIDMap over IndexFlatIP) -/

/-- Model of a faiss IndexIDMap(IndexFlatIP(d)): the immutable dimension and
the list of (internal id, vector) pairs in insertion order. -/
structure FaissIndex (α : Type) where
  d : Nat
  entries : List (Int × List α)
deriving DecidableEq, Repr

/-- build_faiss_index (src/embed.py lines 43-49): an empty IndexIDMap over
IndexFlatIP of the given dimension. -/
def build_faiss_index (α : Type) (dimension : Nat) : FaissIndex α :=
  { d := dimension, entries := [] }

/-- Number of vectors held by the index (faiss ntotal). -/
def FaissIndex.ntotal {α : Type} (idx : FaissIndex α) : Nat :=
  idx.entries.length

/-- faiss add_with_ids: append the given vectors under the given caller
ids, in order. -/
def FaissIndex.add_with_ids {α : Type} (idx : FaissIndex α)
    (vectors : List (List α)) (ids : List Int) : FaissIndex α :=
  { idx with entries := idx.entries ++ ids.zip vectors }

/-- Descending-score comparison used to rank search hits: a pair ranks no
lower than another when its score is at least as large. -/
def scoreGE {α : Type} [LE α] (p q : α × Int) : Prop :=
  q.1 ≤ p.1

instance {α : Type} [LinearOrder α] : DecidableRel (scoreGE (α := α)) :=
  fun p q => inferInstanceAs (Decidable (q.1 ≤ p.1))

instance {α : Type} [LinearOrder α] : IsTotal (α × Int) scoreGE :=
  ⟨fun p q => (le_total q.1 p.1).elim Or.inl Or.inr⟩

instance {α : Type} [LinearOrder α] : IsTrans (α × Int) scoreGE :=
  ⟨fun _ _ _ h₁ h₂ => le_trans h₂ h₁⟩

/-- All stored vectors scored against the query and ranked best-first
(descending inner product), as (score, internal id) pairs. -/
def rankedScores {α : Type} [LinearOrder α] [Mul α] [Add α] [Zero α]
    (idx : FaissIndex α) (q : List α) : List (α × Int) :=
  List.insertionSort scoreGE (idx.entries.map fun en => (dot q en.2, en.1))

/-- Model of IndexIDMap.search for one query row: the k best (score, id)
pairs; when the index holds fewer than k vectors, faiss pads the remaining
slots with id -1 (the caller in embed.py discards those slots). -/
def faiss_search {α : Type} [LinearOrder α] [Mul α] [Add α] [Zero α]
    (idx : FaissIndex α) (q : List α) (k : Nat) : List (α × Int) :=
  (rankedScores idx q).take k ++
    List.replicate (k - (rankedScores idx q).length) (0, -1)

/-! ## Persistence (save_index / load_index, src/embed.py lines 51-90) -/

/-- State of one persisted artifact: the file is absent, present but
unreadable or unparseable, or holds a parsed value. -/
inductive FileState (β : Type) where
  | absent : FileState β
  | corrupt : FileState β
  | good : β → FileState β
deriving DecidableEq, Repr

/-- The three artifacts of the vector_db directory: faiss.index,
metadata.json, and the already_embedded.yaml sidecar holding the count. -/
structure Storage (α : Type) where
  faiss_file : FileState (FaissIndex α)
  metadata_file : FileState (List MetadataRecord)
  sidecar : FileState Nat
deriving DecidableEq, Repr

/-- save_index (src/embed.py lines 51-64), successful path: write the index
file, dump the metadata list, and write the sidecar {count: len(metadata)}.
A failing faiss write raises and is re-raised by the source; the claims
quantify over successful persists, which this models. -/
def save_index {α : Type} (st : Storage α) (index : FaissIndex α)
    (metadata_list : List MetadataRecord) : Storage α :=
  { st with
    faiss_file := FileState.good index,
    metadata_file := FileState.good metadata_list,
    sidecar := FileState.good metadata_list.length }

/-- load_index (src/embed.py lines 66-90): if either file is missing return
(None, []); if the index file fails to read, log and return (None, []); the
IndexIDMap re-wrap is the identity here; if metadata.json fails to read or
parse, log and fall back to an empty metadata list while keeping the loaded
index. -/
def load_index {α : Type} (st : Storage α) :
    Option (FaissIndex α) × List MetadataRecord :=
  match st.faiss_file, st.metadata_file with
  | FileState.absent, _ => (none, [])
  | _, FileState.absent => (none, [])
  | FileState.corrupt, _ => (none, [])
  | FileState.good idx, FileState.corrupt => (some idx, [])
  | FileState.good idx, FileState.good md => (some idx, md)

/-! ## embed_all_and_save and add_embeddings_incremental
(src/embed.py lines 92-166) -/

/-- embed_all_and_save (src/embed.py lines 92-122): embed every chunk text,
build a fresh index (of dimension 1 when there is nothing to embed), add
the vectors under ids 0..n-1, rebuild the metadata list, persist once, and
return the pair. The Storage argument is the prior on-disk state and the
second component of the result is the state after the persist. -/
def embed_all_and_save {α : Type} [LinearOrderedField α] (e : EmbedEnv α)
    (st : Storage α) (all_chunks : List Chunk) :
    (FaissIndex α × List MetadataRecord) × Storage α :=
  let texts := all_chunks.map Chunk.text
  let embeddings := compute_embeddings e texts
  if matSize embeddings = 0 then
    let index := build_faiss_index α 1
    let metadata_list : List MetadataRecord := []
    ((index, metadata_list), save_index st index metadata_list)
  else
    let d := (embeddings.headD []).length
    let index := build_faiss_index α d
    let ids := (List.range embeddings.length).map Int.ofNat
    let index := index.add_with_ids embeddings ids
    let metadata_list := all_chunks.map mdOfChunk
    ((index, metadata_list), save_index st index metadata_list)

/-- add_embeddings_incremental (src/embed.py lines 124-166): an empty chunk
list returns the state untouched before any encoder call; embeddings whose
total size is zero likewise return untouched; a width different from the
index dimension raises ValueError before any mutation; otherwise the new
vectors are appended under the next contiguous ids starting at
len(metadata_list), the metadata list is extended, and the state is
persisted once. The Except carries the raised ValueError message; the
second component is the on-disk state after the call. -/
def add_embeddings_incremental {α : Type} [LinearOrderedField α]
    (e : EmbedEnv α) (st : Storage α) (index : FaissIndex α)
    (metadata_list : List MetadataRecord) (new_chunks : List Chunk) :
    Except String (FaissIndex α × List MetadataRecord) × Storage α :=
  if new_chunks.isEmpty then (Except.ok (index, metadata_list), st)
  else
    let texts := new_chunks.map Chunk.text
    let embeddings := compute_embeddings e texts
    if matSize embeddings = 0 then (Except.ok (index, metadata_list), st)
    else
      let index_dim := index.d
      if (embeddings.headD []).length ≠ index_dim then
        (Except.error ("Embedding dimension (" ++
            toString (embeddings.headD []).length ++
            ") does not match FAISS index dimension (" ++
            toString index_dim ++ ")."), st)
      else
        let start_id := metadata_list.length
        let n := embeddings.length
        let ids := (List.range n).map fun i => Int.ofNat (start_id + i)
        let index := index.add_with_ids embeddings ids
        let metadata_list := metadata_list ++ new_chunks.map mdOfChunk
        (Except.ok (index, metadata_list), save_index st index metadata_list)

/-! ## search (src/embed.py lines 169-184) -/

/-- The join of one (score, id) search hit with the metadata list: slots
with a negative id (faiss padding) or an id at or beyond the metadata
length are skipped; otherwise the hit becomes (metadata[idx], score). -/
def mdJoin {α : Type} (metadata_list : List MetadataRecord) (hit : α × Int) :
    Option (MetadataRecord × α) :=
  if hit.2 < 0 ∨ (metadata_list.length : Int) ≤ hit.2 then none
  else (metadata_list.get? hit.2.toNat).map fun m => (m, hit.1)

/-- search (src/embed.py lines 169-184): a missing index or empty metadata
list returns []; a query embedding of size zero returns []; otherwise the
index is searched for the top_k hits and each hit is joined with its
metadata record, skipping padded or out-of-range ids. -/
def search {α : Type} [LinearOrderedField α] (e : EmbedEnv α)
    (index : Option (FaissIndex α)) (metadata_list : List MetadataRecord)
    (query : String) (top_k : Nat := 5) : List (MetadataRecord × α) :=
  match index with
  | none => []
  | some idx =>
    if metadata_list.isEmpty then []
    else
      let q_emb := compute_embeddings e [query]
      if matSize q_emb = 0 then []
      else (faiss_search idx (q_emb.headD []) top_k).filterMap
        (mdJoin metadata_list)

/-! ## Lemmas about the chunking loop -/

/-- Every chunk the loop emits whose word count exceeds max_words is either
the chunk that was already under construction or the word list of a single
input sentence: merged chunks never exceed the bound, because merging is
guarded by the bound. -/
lemma chunkLoop_overlong_mem (m : Nat) (ss : List String) :
    ∀ (cur : List String), ∀ c ∈ chunkLoop m ss cur, m < c.length →
      c = cur ∨ ∃ s ∈ ss, c = strWords s := by
  induction ss with
  | nil =>
    intro cur c hc _
    by_cases h : cur.isEmpty
    · simp [chunkLoop, h] at hc
    · simp [chunkLoop, h] at hc
      exact Or.inl hc
  | cons s rest ih =>
    intro cur c hc hlen
    simp only [chunkLoop] at hc
    by_cases h : cur.length + (strWords s).length > m
    · rw [if_pos h] at hc
      by_cases hcur : cur.isEmpty
      · rw [if_pos hcur] at hc
        rcases ih _ c hc hlen with h1 | ⟨s', hs', he⟩
        · exact Or.inr ⟨s, List.mem_cons_self _ _, h1⟩
        · exact Or.inr ⟨s', List.mem_cons_of_mem _ hs', he⟩
      · rw [if_neg hcur] at hc
        rcases List.mem_cons.mp hc with rfl | hc'
        · exact Or.inl rfl
        · rcases ih _ c hc' hlen with h1 | ⟨s', hs', he⟩
          · exact Or.inr ⟨s, List.mem_cons_self _ _, h1⟩
          · exact Or.inr ⟨s', List.mem_cons_of_mem _ hs', he⟩
    · rw [if_neg h] at hc
      rcases ih _ c hc hlen with h1 | ⟨s', hs', he⟩
      · exfalso
        rw [h1, List.length_append] at hlen
        omega
      · exact Or.inr ⟨s', List.mem_cons_of_mem _ hs', he⟩

/-- A chunk under construction whose word count already exceeds max_words is
always emitted as-is: no later sentence can be merged into it. -/
lemma chunkLoop_self_mem (m : Nat) (ss : List String) :
    ∀ (cur : List String), m < cur.length → cur ∈ chunkLoop m ss cur := by
  induction ss with
  | nil =>
    intro cur h
    have hne : ¬ cur.isEmpty := by
      cases cur with
      | nil => simp at h
      | cons a t => simp
    simp [chunkLoop, hne]
  | cons s rest ih =>
    intro cur h
    have hgt : cur.length + (strWords s).length > m := by omega
    have hne : ¬ cur.isEmpty := by
      cases cur with
      | nil => simp at h
      | cons a t => simp
    simp only [chunkLoop]
    rw [if_pos hgt, if_neg hne]
    exact List.mem_cons_self _ _

/-- Every sentence of the input whose own word count exceeds max_words is
emitted by the loop as its own chunk. -/
lemma chunkLoop_overlong_emitted (m : Nat) (ss : List String) :
    ∀ (cur : List String), ∀ s ∈ ss, m < (strWords s).length →
      strWords s ∈ chunkLoop m ss cur := by
  induction ss with
  | nil => simp
  | cons s₀ rest ih =>
    intro cur s hs hlen
    simp only [chunkLoop]
    rcases List.mem_cons.mp hs with rfl | hs'
    · have hgt : cur.length + (strWords s).length > m := by omega
      rw [if_pos hgt]
      by_cases hcur : cur.isEmpty
      · rw [if_pos hcur]
        exact chunkLoop_self_mem m rest _ hlen
      · rw [if_neg hcur]
        exact List.mem_cons_of_mem _ (chunkLoop_self_mem m rest _ hlen)
    · by_cases hgt : cur.length + (strWords s₀).length > m
      · rw [if_pos hgt]
        by_cases hcur : cur.isEmpty
        · rw [if_pos hcur]
          exact ih _ s hs' hlen
        · rw [if_neg hcur]
          exact List.mem_cons_of_mem _ (ih _ s hs' hlen)
      · rw [if_neg hgt]
        exact ih _ s hs' hlen

/-- Concatenating the word lists of the chunks the loop emits yields the
pending chunk followed by all remaining sentence words, in order. -/
lemma chunkLoop_join (m : Nat) (ss : List String) :
    ∀ (cur : List String),
      (chunkLoop m ss cur).flatten = cur ++ (ss.map strWords).flatten := by
  induction ss with
  | nil =>
    intro cur
    by_cases h : cur.isEmpty
    · have : cur = [] := by
        cases cur with
        | nil => rfl
        | cons a t => simp at h
      simp [chunkLoop, h, this]
    · simp [chunkLoop, h]
  | cons s rest ih =>
    intro cur
    simp only [chunkLoop]
    by_cases h : cur.length + (strWords s).length > m
    · rw [if_pos h]
      by_cases hcur : cur.isEmpty
      · have hnil : cur = [] := by
          cases cur with
          | nil => rfl
          | cons a t => simp at hcur
        rw [if_pos hcur, ih]
        simp [hnil]
      · rw [if_neg hcur]
        simp [ih]
    · rw [if_neg h, ih]
      simp

/-! ## Claim theorems for the Chunk Builder -/

/-- C4: for every input text (given through the sentence tokenizer's output)
and every max_words, every chunk emitted by chunk_text has whitespace-token
word count at most max_words, except a chunk that is exactly the word list
of one input sentence whose own word count exceeds max_words; and such an
over-long sentence is always emitted alone as its own chunk, never split.
Chunks are represented by their word lists (chunk_text space-joins them), so
the whitespace-token word count of a chunk is the length of its word list. -/
theorem chunk_text_word_bound (sentences : List String) (max_words : Nat) :
    (∀ c ∈ chunk_text_words sentences max_words,
        c.length ≤ max_words ∨
          ∃ s ∈ sentences, c = strWords s ∧ max_words < c.length)
    ∧ ∀ s ∈ sentences, max_words < (strWords s).length →
        strWords s ∈ chunk_text_words sentences max_words := by
  constructor
  · intro c hc
    by_cases h : c.length ≤ max_words
    · exact Or.inl h
    · have hlt : max_words < c.length := lt_of_not_le h
      rcases chunkLoop_overlong_mem max_words sentences [] c hc hlt with h1 | ⟨s, hs, he⟩
      · rw [h1] at hlt
        simp at hlt
      · exact Or.inr ⟨s, hs, he, hlt⟩
  · intro s hs h
    exact chunkLoop_overlong_emitted max_words sentences [] s hs h

/-- Witness for C4 at max_words = 3 on two sentences of 3 and 5 words: the
5-word sentence exceeds the bound and is emitted alone as its own chunk. -/
theorem chunk_text_word_bound_witness :
    "big long sentence of five" ∈ (["a b c.", "big long sentence of five"] : List String)
    ∧ 3 < (strWords "big long sentence of five").length
    ∧ strWords "big long sentence of five" ∈
        chunk_text_words ["a b c.", "big long sentence of five"] 3 :=
  ⟨by decide, by decide,
    (chunk_text_word_bound ["a b c.", "big long sentence of five"] 3).2
      "big long sentence of five" (by decide) (by decide)⟩

/-- C5: concatenating the chunks chunk_text produces for a document, in
output order, reproduces the document's sentence sequence as produced by the
sentence tokenizer, with no sentence lost and none duplicated: the word
lists of the chunks concatenate to exactly the concatenated word lists of
the tokenized sentences, in order (chunk texts are the space-joins of those
word lists, so sentence content and order survive verbatim up to the
whitespace normalization that joining on single spaces performs). -/
theorem chunk_text_preserves_sentences (sentences : List String) (max_words : Nat) :
    (chunk_text_words sentences max_words).flatten = (sentences.map strWords).flatten := by
  simpa using chunkLoop_join max_words sentences []

/-- C6: the chunk id is a deterministic function of (site, source-file stem,
chunk_index) only — the text parameter of _make_chunk_id never enters the
hashed key — so re-chunking with unchanged boundaries (same chunk count)
reproduces identical ids in identical order even when every chunk text
changed. The external hashlib.sha256 hexdigest is quantified as an arbitrary
pure function. -/
theorem make_chunk_id_content_independent :
    (∀ (sha256_hex : String → String) (site stem : String) (i : Nat)
        (t₁ t₂ : Option String),
        make_chunk_id sha256_hex site stem i t₁ =
          make_chunk_id sha256_hex site stem i t₂)
    ∧ ∀ (sha256_hex : String → String) (site stem : String)
        (chunks₁ chunks₂ : List String), chunks₁.length = chunks₂.length →
        assign_chunk_ids sha256_hex site stem chunks₁ =
          assign_chunk_ids sha256_hex site stem chunks₂ := by
  refine ⟨fun _ _ _ _ _ _ => rfl, fun h site stem c₁ c₂ hlen => ?_⟩
  simp [assign_chunk_ids, hlen]

/-- Witness for C6: two two-chunk documents with entirely different chunk
texts receive the same id sequence. -/
theorem make_chunk_id_content_independent_witness :
    (["alpha text", "beta text"] : List String).length =
      (["gamma text", "delta text"] : List String).length
    ∧ assign_chunk_ids (fun s => s ++ "#") "siteA" "doc" ["alpha text", "beta text"]
        = assign_chunk_ids (fun s => s ++ "#") "siteA" "doc" ["gamma text", "delta text"] :=
  ⟨rfl, make_chunk_id_content_independent.2 (fun s => s ++ "#") "siteA" "doc"
    ["alpha text", "beta text"] ["gamma text", "delta text"] rfl⟩

/-! ## Shape lemmas for compute_embeddings -/

/-- Normalizing a row does not change its width. -/
lemma length_normalize_L2 {α : Type} [Mul α] [Add α] [Zero α] [Div α]
    (sqrt : α → α) (row : List α) :
    (normalize_L2 sqrt row).length = row.length := by
  simp [normalize_L2]

/-- compute_embeddings returns one row per input text. -/
lemma length_compute_embeddings {α : Type} [Mul α] [Add α] [Zero α] [Div α]
    (e : EmbedEnv α) (ts : List String) :
    (compute_embeddings e ts).length = ts.length := by
  unfold compute_embeddings
  by_cases h : ts.isEmpty
  · cases ts with
    | nil => simp
    | cons a t => simp at h
  · simp [h, e.encode_length]

/-- Every row of compute_embeddings has the encoder's output width. -/
lemma width_compute_embeddings {α : Type} [Mul α] [Add α] [Zero α] [Div α]
    (e : EmbedEnv α) (ts : List String) :
    ∀ r ∈ compute_embeddings e ts, r.length = e.width := by
  unfold compute_embeddings
  by_cases h : ts.isEmpty
  · simp [h]
  · simp only [h, if_neg, Bool.false_eq_true, not_false_eq_true, if_false]
    intro r hr
    rcases List.mem_map.mp hr with ⟨row, hrow, rfl⟩
    rw [length_normalize_L2]
    exact e.encode_width ts row hrow

/-- Sum of the row widths of a matrix whose rows all have width w. -/
lemma matSize_of_width {α : Type} (L : List (List α)) (w : Nat)
    (h : ∀ r ∈ L, r.length = w) : matSize L = L.length * w := by
  induction L with
  | nil => simp [matSize]
  | cons a t ih =>
    have ha := h a (List.mem_cons_self _ _)
    have ht := ih fun r hr => h r (List.mem_cons_of_mem _ hr)
    simp only [matSize, List.map_cons, List.sum_cons] at ht ⊢
    rw [ha, ht, List.length_cons, Nat.succ_mul, Nat.add_comm]

/-- The numpy size of the embedding matrix is the text count times the
encoder width. -/
lemma matSize_compute_embeddings {α : Type} [Mul α] [Add α] [Zero α] [Div α]
    (e : EmbedEnv α) (ts : List String) :
    matSize (compute_embeddings e ts) = ts.length * e.width := by
  rw [matSize_of_width _ e.width (width_compute_embeddings e ts),
    length_compute_embeddings]

/-- For a nonempty batch, the first-row width (the shape[1] probed by
add_embeddings_incremental) is the encoder width. -/
lemma headD_compute_embeddings_width {α : Type} [Mul α] [Add α] [Zero α] [Div α]
    (e : EmbedEnv α) (ts : List String) (h : ts ≠ []) :
    ((compute_embeddings e ts).headD []).length = e.width := by
  have hne : compute_embeddings e ts ≠ [] := by
    intro hc
    have := length_compute_embeddings e ts
    rw [hc] at this
    exact h (List.length_eq_zero.mp this.symm)
  have hmem : (compute_embeddings e ts).headD [] ∈ compute_embeddings e ts := by
    cases hcc : compute_embeddings e ts with
    | nil => exact absurd hcc hne
    | cons r rest => simp
  exact width_compute_embeddings e ts _ hmem

/-! ## Shared concrete instances over ℚ used by the witnesses -/

/-- A concrete rational embedding environment of width 1: every text encodes
to the unit vector [1] (already L2-normalized). -/
def envQ : EmbedEnv ℚ where
  width := 1
  encode := fun ts => ts.map fun _ => [1]
  sqrt := fun x => x
  encode_length := by
    intro ts
    simp
  encode_width := by
    intro ts r hr
    rcases List.mem_map.mp hr with ⟨a, _, rfl⟩
    rfl

/-- A concrete metadata record. -/
def mdA : MetadataRecord :=
  { id := "chunk-a", site := "siteA", source_file := "doc.txt", chunk_index := 0 }

/-- A concrete chunk not yet present in the index. -/
def chB : Chunk :=
  { id := "chunk-b", site := "siteA", source_file := "doc.txt",
    chunk_index := 1, text := "some new sentence" }

/-- A concrete one-vector rational index of dimension 1. -/
def idxQ : FaissIndex ℚ :=
  { d := 1, entries := [(0, [1])] }

/-- A concrete prior storage state (everything already persisted once). -/
def stQ : Storage ℚ :=
  { faiss_file := FileState.good idxQ, metadata_file := FileState.good [mdA],
    sidecar := FileState.good 1 }

/-- A concrete storage state whose index file reads fine but whose
metadata.json is unparseable. -/
def stC8 : Storage ℚ :=
  { faiss_file := FileState.good idxQ, metadata_file := FileState.corrupt,
    sidecar := FileState.good 1 }

/-! ## Helper lemmas about load_index and search -/

/-- load_index returns the empty state whenever the index file is absent or
unreadable, or the metadata file is absent. -/
lemma load_index_none_cases {α : Type} (st : Storage α)
    (h : st.faiss_file = FileState.absent ∨ st.faiss_file = FileState.corrupt ∨
      st.metadata_file = FileState.absent) :
    load_index st = (none, []) := by
  obtain ⟨f, m, sc⟩ := st
  rcases h with h | h | h
  · rw [show f = FileState.absent from h]
    cases m <;> rfl
  · rw [show f = FileState.corrupt from h]
    cases m <;> rfl
  · rw [show m = FileState.absent from h]
    cases f <;> rfl

/-- mdJoin skips a hit with a negative internal id (the faiss padding). -/
lemma mdJoin_neg {α : Type} (md : List MetadataRecord) (hit : α × Int)
    (h : hit.2 < 0) : mdJoin md hit = none :=
  if_pos (Or.inl h)

/-- Joining the faiss padding slots with metadata yields nothing. -/
lemma filterMap_mdJoin_replicate {α : Type} [Zero α] (md : List MetadataRecord) (k : Nat) :
    (List.replicate k ((0 : α), (-1 : Int))).filterMap (mdJoin md) = [] := by
  induction k with
  | zero => rfl
  | succ n ih =>
    rw [List.replicate_succ, List.filterMap_cons,
      mdJoin_neg md _ (by norm_num), ih]

/-! ## Claim theorems for the Index Store and Query Service -/

/-- C10: embed_all_and_save on an empty chunk list never invokes the
encoder — the right-hand side below does not depend on the environment e at
all — and builds, persists and returns an empty index of dimension 1 (not
the encoder's output dimension) together with an empty metadata list. -/
theorem embed_all_and_save_empty {α : Type} [LinearOrderedField α]
    (e : EmbedEnv α) (st : Storage α) :
    embed_all_and_save e st [] =
      ((build_faiss_index α 1, []), save_index st (build_faiss_index α 1) [])
    ∧ ((embed_all_and_save e st []).1.1).d = 1 := by
  constructor <;> rfl

/-- C8 counterexample: a storage state whose faiss index file is readable
but whose metadata.json is unparseable. load_index keeps the loaded index
and only empties the metadata list, so it does not return the claimed empty
state (no index): its first component is not none. -/
theorem load_index_corrupt_metadata_counterexample :
    load_index stC8 = (some idxQ, []) ∧ (load_index stC8).1 ≠ none := by
  constructor
  · rfl
  · decide

/-- C8 amended: load_index degrades instead of raising, case by case: a
missing index file, an unreadable index file, or a missing metadata file
yields the empty state (none, []); a readable index file with unreadable or
unparseable metadata yields the loaded index with an empty metadata list;
two readable files yield both parsed values. -/
theorem load_index_degradation {α : Type} (st : Storage α) :
    (st.faiss_file = FileState.absent ∨ st.faiss_file = FileState.corrupt ∨
        st.metadata_file = FileState.absent → load_index st = (none, []))
    ∧ (∀ idx, st.faiss_file = FileState.good idx →
        st.metadata_file = FileState.corrupt → load_index st = (some idx, []))
    ∧ (∀ idx md, st.faiss_file = FileState.good idx →
        st.metadata_file = FileState.good md → load_index st = (some idx, md)) := by
  obtain ⟨f, m, sc⟩ := st
  refine ⟨fun h => load_index_none_cases _ h, ?_, ?_⟩
  · intro idx hf hm
    rw [show f = FileState.good idx from hf, show m = FileState.corrupt from hm]
    rfl
  · intro idx md hf hm
    rw [show f = FileState.good idx from hf, show m = FileState.good md from hm]
    rfl

/-- Witness for the amended C8 theorem at a concrete corrupt-metadata
state. -/
theorem load_index_degradation_witness :
    stC8.faiss_file = FileState.good idxQ
    ∧ stC8.metadata_file = FileState.corrupt
    ∧ load_index stC8 = (some idxQ, []) :=
  ⟨rfl, rfl, (load_index_degradation stC8).2.1 idxQ rfl rfl⟩

/-- C9: for every query string and every k, querying returns an empty list
and never an error (the embedded search is a total function) when the index
is absent (None), when the index is empty (no stored vectors), or when the
persisted state is unloadable (missing or unreadable index file, or missing
metadata file) and search is fed what load_index produced. -/
theorem search_empty_absent_unloadable_nil {α : Type} [LinearOrderedField α] :
    (∀ (e : EmbedEnv α) (md : List MetadataRecord) (q : String) (k : Nat),
        search e none md q k = [])
    ∧ (∀ (e : EmbedEnv α) (idx : FaissIndex α) (md : List MetadataRecord)
        (q : String) (k : Nat), idx.entries = [] →
        search e (some idx) md q k = [])
    ∧ (∀ (e : EmbedEnv α) (st : Storage α) (q : String) (k : Nat),
        st.faiss_file = FileState.absent ∨ st.faiss_file = FileState.corrupt ∨
          st.metadata_file = FileState.absent →
        search e (load_index st).1 (load_index st).2 q k = []) := by
  have hnone : ∀ (e : EmbedEnv α) (md : List MetadataRecord) (q : String) (k : Nat),
      search e none md q k = [] := fun _ _ _ _ => rfl
  refine ⟨hnone, ?_, ?_⟩
  · intro e idx md q k h
    simp only [search]
    by_cases hmd : md.isEmpty
    · simp [hmd]
    · simp only [hmd, Bool.false_eq_true, if_false]
      by_cases hq : matSize (compute_embeddings e [q]) = 0
      · simp [hq]
      · simp only [hq, if_neg, not_false_eq_true, if_false]
        rw [show faiss_search idx ((compute_embeddings e [q]).headD []) k =
            List.replicate (k - 0) ((0 : α), (-1 : Int)) from by
          simp [faiss_search, rankedScores, h]]
        exact filterMap_mdJoin_replicate md _
  · intro e st q k h
    rw [load_index_none_cases st h]
    exact hnone e [] q k

/-- Witness for C9: an empty one-dimensional index answers a concrete query
with the empty list. -/
theorem search_empty_absent_unloadable_nil_witness :
    (FaissIndex.entries ({ d := 1, entries := [] } : FaissIndex ℚ) = [])
    ∧ search envQ (some ({ d := 1, entries := [] } : FaissIndex ℚ)) [mdA]
        "any question" 5 = [] :=
  ⟨rfl, (search_empty_absent_unloadable_nil (α := ℚ)).2.1 envQ
    { d := 1, entries := [] } [mdA] "any question" 5 rfl⟩

/-- The persisted-alignment property of a storage state: the index file and
metadata file both hold values, the metadata length equals the number of
vectors held by the index, and the sidecar records that same length. -/
def PersistOK {α : Type} (st : Storage α) : Prop :=
  ∃ idx md, st.faiss_file = FileState.good idx ∧
    st.metadata_file = FileState.good md ∧
    st.sidecar = FileState.good md.length ∧ md.length = idx.ntotal

/-- C1: after every successful persist, the persisted metadata sequence is
exactly as long as the index holds vectors and the sidecar count equals that
length. Reached from embed_all_and_save this holds unconditionally; reached
from add_embeddings_incremental it holds for every call whose incoming
in-memory state already satisfies the alignment (the invariant is
preserved), and calls that do not persist leave the storage untouched. -/
theorem persisted_metadata_aligned {α : Type} [LinearOrderedField α]
    (e : EmbedEnv α) (st : Storage α) :
    (∀ all_chunks, PersistOK (embed_all_and_save e st all_chunks).2)
    ∧ ∀ (idx : FaissIndex α) (md : List MetadataRecord) (new_chunks : List Chunk),
        md.length = idx.ntotal →
        (add_embeddings_incremental e st idx md new_chunks).2 = st ∨
          PersistOK (add_embeddings_incremental e st idx md new_chunks).2 := by
  constructor
  · intro all_chunks
    unfold PersistOK
    by_cases h : matSize (compute_embeddings e (all_chunks.map Chunk.text)) = 0
    · simp only [embed_all_and_save, h, if_pos, save_index]
      exact ⟨build_faiss_index α 1, [], rfl, rfl, rfl, rfl⟩
    · simp only [embed_all_and_save, h, if_neg, not_false_eq_true, if_false,
        save_index]
      refine ⟨_, _, rfl, rfl, rfl, ?_⟩
      simp [FaissIndex.ntotal, FaissIndex.add_with_ids, build_faiss_index,
        List.length_zip, length_compute_embeddings]
  · intro idx md new_chunks hinv
    by_cases h1 : new_chunks.isEmpty
    · exact Or.inl (by simp [add_embeddings_incremental, h1])
    · by_cases h2 : matSize (compute_embeddings e (new_chunks.map Chunk.text)) = 0
      · exact Or.inl (by simp [add_embeddings_incremental, h1, h2])
      · by_cases h3 : ((compute_embeddings e (new_chunks.map Chunk.text)).headD []).length = idx.d
        · refine Or.inr ?_
          unfold PersistOK
          simp only [add_embeddings_incremental, h1, h2, h3,
            Bool.false_eq_true, if_false, not_false_eq_true,
            ne_eq, not_true_eq_false, if_true, ite_false, ite_true,
            save_index]
          refine ⟨_, _, rfl, rfl, rfl, ?_⟩
          simp only [List.length_append, List.length_map, FaissIndex.ntotal,
            FaissIndex.add_with_ids, List.length_zip, List.length_range,
            length_compute_embeddings]
          rw [hinv]
          simp [FaissIndex.ntotal]
        · refine Or.inl ?_
          rw [List.headD_eq_head?] at h3
          simp [add_embeddings_incremental, h1, h2, h3]

/-- Witness for C1 at a concrete aligned state: one prior vector with one
prior metadata record, extended by one new chunk. -/
theorem persisted_metadata_aligned_witness :
    ([mdA] : List MetadataRecord).length = idxQ.ntotal
    ∧ ((add_embeddings_incremental envQ stQ idxQ [mdA] [chB]).2 = stQ ∨
        PersistOK (add_embeddings_incremental envQ stQ idxQ [mdA] [chB]).2) :=
  ⟨rfl, (persisted_metadata_aligned envQ stQ).2 idxQ [mdA] [chB] rfl⟩

/-- C2: for every existing index-and-metadata state and every list of new
chunks whose embedding width (the encoder's fixed positive output dimension)
matches the index dimension, add_embeddings_incremental succeeds, grows the
index and the metadata sequence by exactly the number of new chunks, and
leaves every prior entry — internal ids, vectors, and metadata records —
unchanged as the prefix of the new state; for an empty chunk list it returns
the state unchanged, performs no persist (the storage is returned as-is),
and computes no embeddings (the result is the same for every encoder). -/
theorem add_embeddings_incremental_frame {α : Type} [LinearOrderedField α]
    (e : EmbedEnv α) (st : Storage α) (idx : FaissIndex α)
    (md : List MetadataRecord) (new_chunks : List Chunk)
    (hw : e.width = idx.d) (hpos : 0 < e.width) :
    (∃ idx' md',
        add_embeddings_incremental e st idx md new_chunks =
          (Except.ok (idx', md'),
            if new_chunks.isEmpty then st else save_index st idx' md') ∧
        idx'.d = idx.d ∧
        idx'.entries.length = idx.entries.length + new_chunks.length ∧
        md'.length = md.length + new_chunks.length ∧
        idx'.entries.take idx.entries.length = idx.entries ∧
        md'.take md.length = md)
    ∧ (new_chunks = [] →
        ∀ e₂ : EmbedEnv α,
          add_embeddings_incremental e₂ st idx md new_chunks =
            (Except.ok (idx, md), st)) := by
  constructor
  · by_cases h1 : new_chunks.isEmpty
    · have h0 : new_chunks = [] := by
        cases new_chunks with
        | nil => rfl
        | cons a t => simp at h1
      subst h0
      exact ⟨idx, md, by simp [add_embeddings_incremental], rfl, by simp,
        by simp, by simp, by simp⟩
    · have hne : new_chunks ≠ [] := by
        intro h0
        rw [h0] at h1
        exact h1 rfl
      have htexts : new_chunks.map Chunk.text ≠ [] := by
        simpa using hne
      have h2 : matSize (compute_embeddings e (new_chunks.map Chunk.text)) ≠ 0 := by
        rw [matSize_compute_embeddings]
        exact Nat.mul_ne_zero (by simpa using hne) (Nat.pos_iff_ne_zero.mp hpos)
      have h3 : ((compute_embeddings e (new_chunks.map Chunk.text)).headD []).length
          = idx.d := by
        rw [headD_compute_embeddings_width e _ htexts]
        exact hw
      refine ⟨idx.add_with_ids (compute_embeddings e (new_chunks.map Chunk.text))
          ((List.range (compute_embeddings e (new_chunks.map Chunk.text)).length).map
            fun i => Int.ofNat (md.length + i)),
        md ++ new_chunks.map mdOfChunk, ?_, rfl, ?_, ?_, ?_, ?_⟩
      · rw [List.headD_eq_head?] at h3
        simp [add_embeddings_incremental, h1, h2, h3]
      · simp [FaissIndex.add_with_ids, List.length_zip,
          length_compute_embeddings]
      · simp
      · simp only [FaissIndex.add_with_ids]
        exact List.take_left _ _
      · exact List.take_left _ _
  · intro h0 e₂
    subst h0
    simp [add_embeddings_incremental]

/-- Witness for C2: a width-1 encoder extending a one-vector dimension-1
index with one new chunk. -/
theorem add_embeddings_incremental_frame_witness :
    envQ.width = idxQ.d ∧ 0 < envQ.width ∧
    ((∃ idx' md',
        add_embeddings_incremental envQ stQ idxQ [mdA] [chB] =
          (Except.ok (idx', md'),
            if ([chB] : List Chunk).isEmpty then stQ else save_index stQ idx' md') ∧
        idx'.d = idxQ.d ∧
        idx'.entries.length = idxQ.entries.length + ([chB] : List Chunk).length ∧
        md'.length = ([mdA] : List MetadataRecord).length + ([chB] : List Chunk).length ∧
        idx'.entries.take idxQ.entries.length = idxQ.entries ∧
        md'.take ([mdA] : List MetadataRecord).length = [mdA])
    ∧ (([chB] : List Chunk) = [] →
        ∀ e₂ : EmbedEnv ℚ,
          add_embeddings_incremental e₂ stQ idxQ [mdA] [chB] =
            (Except.ok (idxQ, [mdA]), stQ))) :=
  ⟨rfl, by decide,
    add_embeddings_incremental_frame envQ stQ idxQ [mdA] [chB] rfl (by decide)⟩

/-- C3: an incremental-update call on a nonempty chunk list whose computed
embedding width (the encoder's fixed positive output dimension) differs from
the dimension of the index raises the ValueError naming both widths, and the
call leaves both the in-memory pair and the persisted files exactly as they
were: the returned storage is the incoming storage and no index or metadata
mutation has happened (the raise precedes every append and every write in
the source). -/
theorem add_embeddings_incremental_dim_mismatch {α : Type} [LinearOrderedField α]
    (e : EmbedEnv α) (st : Storage α) (idx : FaissIndex α)
    (md : List MetadataRecord) (new_chunks : List Chunk)
    (hne : new_chunks ≠ []) (hpos : 0 < e.width) (hw : e.width ≠ idx.d) :
    add_embeddings_incremental e st idx md new_chunks =
      (Except.error ("Embedding dimension (" ++ toString e.width ++
        ") does not match FAISS index dimension (" ++ toString idx.d ++ ")."),
        st) := by
  have h1 : ¬ new_chunks.isEmpty := by
    cases new_chunks with
    | nil => exact absurd rfl hne
    | cons a t => simp
  have htexts : new_chunks.map Chunk.text ≠ [] := by
    simpa using hne
  have h2 : matSize (compute_embeddings e (new_chunks.map Chunk.text)) ≠ 0 := by
    rw [matSize_compute_embeddings]
    exact Nat.mul_ne_zero (by simpa using hne) (Nat.pos_iff_ne_zero.mp hpos)
  have h3 : ((compute_embeddings e (new_chunks.map Chunk.text)).headD []).length
      = e.width :=
    headD_compute_embeddings_width e _ htexts
  rw [List.headD_eq_head?] at h3
  simp [add_embeddings_incremental, h1, h2, h3, hw]

/-- Witness for C3: a width-1 encoder against an empty index of dimension 2
raises the mismatch error and leaves the storage untouched. -/
theorem add_embeddings_incremental_dim_mismatch_witness :
    ([chB] : List Chunk) ≠ [] ∧ 0 < envQ.width ∧
    envQ.width ≠ ({ d := 2, entries := [] } : FaissIndex ℚ).d ∧
    add_embeddings_incremental envQ stQ ({ d := 2, entries := [] } : FaissIndex ℚ)
        [mdA] [chB] =
      (Except.error ("Embedding dimension (" ++ toString envQ.width ++
        ") does not match FAISS index dimension (" ++
        toString ({ d := 2, entries := [] } : FaissIndex ℚ).d ++ ")."), stQ) :=
  ⟨by decide, by decide, by decide,
    add_embeddings_incremental_dim_mismatch envQ stQ
      { d := 2, entries := [] } [mdA] [chB] (by decide) (by decide) (by decide)⟩

/-! ## Ranking lemmas for search -/

/-- A successful join keeps the hit's score as the second component. -/
lemma mdJoin_snd_eq {α : Type} (md : List MetadataRecord) (hit : α × Int)
    (p : MetadataRecord × α) (h : mdJoin md hit = some p) : p.2 = hit.1 := by
  unfold mdJoin at h
  split at h
  · exact absurd h (by simp)
  · rcases Option.map_eq_some'.mp h with ⟨m, _, rfl⟩
    rfl

/-- The scores of the joined results form a sublist of the scores of the
hits they came from, in order. -/
lemma filterMap_mdJoin_snd_sublist {α : Type} (md : List MetadataRecord)
    (l : List (α × Int)) :
    List.Sublist ((l.filterMap (mdJoin md)).map Prod.snd) (l.map Prod.fst) := by
  induction l with
  | nil => simp
  | cons a t ih =>
    rw [List.filterMap_cons, List.map_cons]
    cases h : mdJoin md a with
    | none => exact ih.cons _
    | some p =>
      rw [List.map_cons, mdJoin_snd_eq md a p h]
      exact ih.cons₂ _

/-- Joined search results are sorted best-first whenever the hits were. -/
lemma pairwise_filterMap_mdJoin {α : Type} [LinearOrder α]
    (md : List MetadataRecord) (l : List (α × Int))
    (hl : List.Sorted scoreGE l) :
    (l.filterMap (mdJoin md)).Pairwise fun p₁ p₂ => p₂.2 ≤ p₁.2 := by
  have hfst : (l.map Prod.fst).Pairwise fun a b => b ≤ a := by
    rw [List.pairwise_map]
    exact hl
  have hsnd : ((l.filterMap (mdJoin md)).map Prod.snd).Pairwise fun a b => b ≤ a :=
    hfst.sublist (filterMap_mdJoin_snd_sublist md l)
  rw [List.pairwise_map] at hsnd
  exact hsnd

/-- On the interesting branch, search is the metadata join of the k
best-ranked hits (the faiss padding contributes nothing). -/
lemma search_eval {α : Type} [LinearOrderedField α] (e : EmbedEnv α)
    (idx : FaissIndex α) (md : List MetadataRecord) (q : String) (k : Nat)
    (hmd : ¬ md.isEmpty) (hsz : matSize (compute_embeddings e [q]) ≠ 0) :
    search e (some idx) md q k =
      ((rankedScores idx ((compute_embeddings e [q]).headD [])).take k).filterMap
        (mdJoin md) := by
  simp only [search, hmd, Bool.false_eq_true, if_false, hsz,
    not_false_eq_true, faiss_search, List.filterMap_append,
    filterMap_mdJoin_replicate, List.append_nil, ite_false]

/-! ## Concrete search instance of the specification, over ℝ -/

/-- A real embedding environment of width 2 whose encoder sends every text
to the unit vector (1, 0); the square root is the real square root used by
faiss.normalize_L2. -/
noncomputable def envR : EmbedEnv ℝ where
  width := 2
  encode := fun ts => ts.map fun _ => [1, 0]
  sqrt := Real.sqrt
  encode_length := by
    intro ts
    simp
  encode_width := by
    intro ts r hr
    rcases List.mem_map.mp hr with ⟨a, _, rfl⟩
    rfl

/-- Concrete metadata records for the three indexed vectors. -/
def mdR (i : Nat) : MetadataRecord :=
  { id := "vec" ++ toString i, site := "siteB", source_file := "ref.txt",
    chunk_index := i }

/-- The metadata list positionally aligned with the three vectors. -/
def mdListR : List MetadataRecord := [mdR 0, mdR 1, mdR 2]

/-- The index of the specification's search example: the normalized vectors
(1,0), (0,1) and normalized(1,1) = (1/sqrt 2, 1/sqrt 2), under internal ids
0, 1, 2. -/
noncomputable def idxR : FaissIndex ℝ :=
  { d := 2,
    entries := [(0, [1, 0]), (1, [0, 1]),
      (2, [(Real.sqrt 2)⁻¹, (Real.sqrt 2)⁻¹])] }

/-- C7: search returns at most k (metadata, score) pairs, fewer than k when
the index holds fewer vectors, and ranked best-first by inner-product score
(higher first); and on the specification's concrete instance — the
normalized vectors (1,0), (0,1), normalized(1,1) with a query embedding of
(1,0) — k = 2 returns the (1,0) entry first with score exactly 1, then the
normalized(1,1) entry with score 1/sqrt 2, while k = 3 shows the (0,1)
entry ranked last with score 0 (hence not returned at k = 2). -/
theorem search_topk_ranking :
    (∀ (α : Type) [LinearOrderedField α] (e : EmbedEnv α)
        (idx : FaissIndex α) (md : List MetadataRecord) (q : String) (k : Nat),
        (search e (some idx) md q k).length ≤ k ∧
        (search e (some idx) md q k).length ≤ idx.ntotal ∧
        (search e (some idx) md q k).Pairwise fun p₁ p₂ => p₂.2 ≤ p₁.2)
    ∧ search envR (some idxR) mdListR "unit query along x" 2 =
        [(mdR 0, 1), (mdR 2, (Real.sqrt 2)⁻¹)]
    ∧ search envR (some idxR) mdListR "unit query along x" 3 =
        [(mdR 0, 1), (mdR 2, (Real.sqrt 2)⁻¹), (mdR 1, 0)] := by
  have hq : compute_embeddings envR ["unit query along x"] = [[(1 : ℝ), 0]] := by
    norm_num [compute_embeddings, envR, normalize_L2, dot, Real.sqrt_one]
  have hs_pos : (0 : ℝ) < (Real.sqrt 2)⁻¹ := by positivity
  have hs_le : (Real.sqrt 2)⁻¹ ≤ 1 := by
    rw [inv_le_one_iff₀]
    right
    rw [show (1 : ℝ) = Real.sqrt 1 from Real.sqrt_one.symm]
    exact Real.sqrt_le_sqrt (by norm_num)
  have hrank : rankedScores idxR [(1 : ℝ), 0] =
      [(1, 0), ((Real.sqrt 2)⁻¹, 2), (0, 1)] := by
    have hdot1 : dot [(1 : ℝ), 0] [1, 0] = 1 := by norm_num [dot]
    have hdot0 : dot [(1 : ℝ), 0] [0, 1] = 0 := by norm_num [dot]
    have hdots : dot [(1 : ℝ), 0] [(Real.sqrt 2)⁻¹, (Real.sqrt 2)⁻¹] =
        (Real.sqrt 2)⁻¹ := by norm_num [dot]
    simp [rankedScores, idxR, List.insertionSort, List.orderedInsert,
      scoreGE, hdot1, hdot0, hdots, hs_le, hs_pos.not_le]
  refine ⟨?_, ?_, ?_⟩
  · intro α inst e idx md q k
    by_cases hmd : md.isEmpty
    · simp [search, hmd]
    · by_cases hsz : matSize (compute_embeddings e [q]) = 0
      · simp [search, hmd, hsz]
      · rw [search_eval e idx md q k hmd hsz]
        refine ⟨?_, ?_, ?_⟩
        · exact le_trans (List.length_filterMap_le _ _) (List.length_take_le _ _)
        · refine le_trans (List.length_filterMap_le _ _) ?_
          have := List.length_take_le k
            (rankedScores idx ((compute_embeddings e [q]).headD []))
          have hlen : (rankedScores idx ((compute_embeddings e [q]).headD [])).length
              = idx.ntotal := by
            simp [rankedScores, List.length_insertionSort, FaissIndex.ntotal]
          calc (((rankedScores idx ((compute_embeddings e [q]).headD [])).take k).length)
              ≤ (rankedScores idx ((compute_embeddings e [q]).headD [])).length :=
                List.length_take_le' _ _
            _ = idx.ntotal := hlen
        · refine pairwise_filterMap_mdJoin md _ ?_
          exact (List.sorted_insertionSort scoreGE _).sublist
            (List.take_sublist _ _)
  · rw [search_eval envR idxR mdListR "unit query along x" 2 (by simp [mdListR])
      (by rw [hq]; simp [matSize])]
    rw [hq]
    norm_num [hrank, mdJoin, mdListR, List.filterMap_cons]
    rfl
  · rw [search_eval envR idxR mdListR "unit query along x" 3 (by simp [mdListR])
      (by rw [hq]; simp [matSize])]
    rw [hq]
    norm_num [hrank, mdJoin, mdListR, List.filterMap_cons]
    rfl

end PolicyBot
